import Mathlib

/-!
# Verification of `src/solution.py` (scavenger-hunt tree walker)

Shallow embedding of the core of `solution.py`:

* JSON-like response bodies are association lists of string keys and `PyVal`
  values, in insertion order, as CPython dicts behave.
* `normalize_keys` models the dict comprehension
  `{k.lower(): v for k, v in data.items()}` (line 140).
* `request_next` models the fetch-with-one-refresh protocol (lines 91-130).
  The Python `is_retry` flag is encoded as a remaining-retry count:
  `is_retry=False` is `1`, `is_retry=True` is `0`, so the definition is
  structurally recursive and kernel-computable.
* `get_next_secret` models the recursive generator (lines 57-88), fully
  consumed into a list, with a fuel parameter for the (unbounded, no
  cycle detection) recursion; `none` means the fuel ran out.
* The outside world is a `Server`: a function from (path, session header)
  to an optional HTTP response (`none` models a transport-level failure of
  `requests.get`), plus the text returned by `GET get-session`.  URL
  resolution (`create_url`) is abstracted away: servers are keyed by path
  (`urljoin` is idempotent on the already-absolute URLs the code re-joins).
* The malformed raise idiom `raise (type, message, traceback)` is abstracted:
  each raise site produces a distinct `Err` constructor carrying exactly
  the data the site passes to `log_response_error`.
-/

/-- JSON-ish values as Python sees them (the scalar and list shapes the
program's classification logic can encounter). -/
inductive PyVal where
  | null : PyVal
  | str : String → PyVal
  | bool : Bool → PyVal
  | int : Int → PyVal
  | list : List PyVal → PyVal


/-- Python truthiness of a value (`bool(v)`). -/
def PyVal.truthy : PyVal → Bool
  | .null => false
  | .str s => !s.isEmpty
  | .bool b => b
  | .int n => n != 0
  | .list l => !l.isEmpty

/-- A parsed JSON object: string keys to values, in insertion order,
keys pairwise distinct as in a CPython dict.  (The distinctness is not
baked into the type; lemmas state it where needed.) -/
abbrev Dict := List (String × PyVal)

/-- `d.get(k)` / `k in d` on a dict: the value at the first matching key. -/
def dictGet (d : Dict) (k : String) : Option PyVal :=
  (d.find? (fun p => p.1 = k)).map Prod.snd

/-- Python truthiness of `d.get(k)` (`None` when absent is falsy). -/
def optTruthy : Option PyVal → Bool
  | none => false
  | some v => v.truthy

/-- `d[k] = v` on a dict: overwrite in place when the key exists
(keeping its position), else append. -/
def dictInsert (d : Dict) (k : String) (v : PyVal) : Dict :=
  if d.any (fun p => p.1 = k) then
    d.map (fun p => if p.1 = k then (k, v) else p)
  else
    d ++ [(k, v)]

/-- Python `str.lower()` restricted to the ASCII case mapping
(`Char.toLower`), which coincides with CPython on the ASCII keys the
program manipulates. -/
def lowerStr (s : String) : String :=
  ⟨s.data.map Char.toLower⟩

/-- `normalize_keys` (solution.py line 138-140):
`{k.lower(): v for k, v in data.items()}` — a dict comprehension, so
colliding lowered keys resolve last-write-wins at the first occurrence's
position. -/
def normalize_keys (data : Dict) : Dict :=
  data.foldl (fun acc p => dictInsert acc (lowerStr p.1) p.2) []

/-- An HTTP response as the code consumes it: whether
`raise_for_status` passes, and the parsed JSON body (`response.json()`;
JSON parsing itself is an external capability assumed to succeed on the
bodies we model). -/
structure HttpResponse where
  ok : Bool
  body : Dict


/-- The remote scavenger-hunt service.  `respond path session` is the
response to `GET path` with the given `Session` header (`none` while no
credential exists); a `none` result is a transport failure raised by
`requests.get` itself.  `sessionText` is the body text of
`GET get-session` (line 122), which the code never status-checks. -/
structure Server where
  respond : String → Option String → Option HttpResponse
  sessionText : String

/-- Observable requests the program issues, in order. -/
inductive Event where
  | getNode (path : String) (session : Option String)
  | getSession


/-- The raise sites of the program, carrying the data each site hands to
`log_response_error`.  `sessionKeyError` models the `KeyError` CPython
raises evaluating `headers["Session"]` in the argument list of
`log_response_error` (lines 108, 117) when no `Session` header exists
yet.  `typeErr` models the `TypeError` raised when a `next` value is not
a list of strings (`"\n".join(next_list)` in `log_next_list`, line 164)
or when a non-string secret reaches `"".join` (line 209). -/
inductive Err where
  | transportFailure (path : String)
  | sessionRefreshFailure (session : String) (path : String) (rawBody : Dict)
  | malformedErrorResponse (session : String) (path : String) (rawBody : Dict)
  | sessionKeyError (path : String) (rawBody : Dict)
  | missingNextKey (session : Option String) (path : String) (normBody : Dict)
  | typeErr (path : String)


/-- Result of one `request_next` call: the requests it issued, the
`Session` credential after it returns (the Python global `headers`),
and either the response or the raise it escaped with. -/
structure FetchOut where
  events : List Event
  session : Option String
  result : Except Err HttpResponse


/-- `request_next` (solution.py lines 91-130).  The retry budget `1`
is the entry point (`is_retry=False`); the recursive retry runs with
budget `0` (`is_retry=True`).  Control flow follows the source: status
ok returns; otherwise the `is_retry` guard, then the raw-body
`response_json.get("error")` truthiness guard (note: the *raw* body —
`normalize_keys` is only applied later, by `get_next_secret`), then the
credential refresh (`GET get-session`, line 122) and the retry of the
same path. -/
def request_next (srv : Server) (path : String) : Nat → Option String → FetchOut
  | retriesLeft, sess =>
    match srv.respond path sess with
    | none => ⟨[.getNode path sess], sess, .error (.transportFailure path)⟩
    | some r =>
      if r.ok then
        ⟨[.getNode path sess], sess, .ok r⟩
      else
        match retriesLeft with
        | 0 =>
          match sess with
          | some s => ⟨[.getNode path sess], sess, .error (.sessionRefreshFailure s path r.body)⟩
          | none => ⟨[.getNode path sess], sess, .error (.sessionKeyError path r.body)⟩
        | n + 1 =>
          if optTruthy (dictGet r.body "error") = false then
            match sess with
            | some s => ⟨[.getNode path sess], sess, .error (.malformedErrorResponse s path r.body)⟩
            | none => ⟨[.getNode path sess], sess, .error (.sessionKeyError path r.body)⟩
          else
            let out := request_next srv path n (some srv.sessionText)
            ⟨.getNode path sess :: .getSession :: out.events, out.session, out.result⟩

/-- Result of fully consuming one `get_next_secret` generator: requests
issued, final credential, and either every yielded secret in order or
the raise that aborted the generator. -/
structure TravOut where
  events : List Event
  session : Option String
  result : Except Err (List PyVal)


/-- `next_list` elements must all be strings, or `log_next_list`'s
`"\n".join(next_list)` (line 164) raises before any child is visited. -/
def asStrings : List PyVal → Option (List String)
  | [] => some []
  | .str s :: rest => (asStrings rest).map (s :: ·)
  | _ => none

/-- One step of the `for next_path in next_list` loop (lines 85-88):
thread the credential, forward yielded secrets, freeze on the first
raise (later siblings are never visited). -/
def childStep (trav : Option String → String → Option TravOut)
    (acc : Option TravOut) (p : String) : Option TravOut :=
  match acc with
  | none => none
  | some o =>
    match o.result with
    | .error _ => some o
    | .ok secs =>
      match trav o.session p with
      | none => none
      | some o2 =>
        match o2.result with
        | .ok secs2 => some ⟨o.events ++ o2.events, o2.session, .ok (secs ++ secs2)⟩
        | .error e => some ⟨o.events ++ o2.events, o2.session, .error e⟩

/-- The whole child loop over a branch's `next` paths. -/
def walkChildren (trav : Option String → String → Option TravOut)
    (sess : Option String) (paths : List String) : Option TravOut :=
  paths.foldl (childStep trav) (some ⟨[], sess, .ok []⟩)

/-- `get_next_secret` (solution.py lines 57-88), fully consumed.
Per node: fetch (`request_next`), normalize the body, then classify —
`"secret" in response_data` makes a leaf (key *presence*, line 66);
otherwise falsy `response_data.get("next")` raises `MissingNextKey`
(line 72, which logs `headers.get("Session")`, the URL and the
*normalized* data); otherwise iterate the `next` value.  A `next` that
is a string iterates its characters (Python string iteration); any
other truthy non-list raises a `TypeError` in `log_next_list`. -/
def get_next_secret (srv : Server) : Nat → Option String → String → Option TravOut
  | 0, _, _ => none
  | fuel + 1, sess, path =>
    let f := request_next srv path 1 sess
    match f.result with
    | .error e => some ⟨f.events, f.session, .error e⟩
    | .ok r =>
      let response_data := normalize_keys r.body
      match dictGet response_data "secret" with
      | some secret => some ⟨f.events, f.session, .ok [secret]⟩
      | none =>
        if optTruthy (dictGet response_data "next") = false then
          some ⟨f.events, f.session, .error (.missingNextKey f.session path response_data)⟩
        else
          match dictGet response_data "next" with
          | some (.list l) =>
            match asStrings l with
            | none => some ⟨f.events, f.session, .error (.typeErr path)⟩
            | some paths =>
              (walkChildren (get_next_secret srv fuel) f.session paths).map
                fun o => ⟨f.events ++ o.events, o.session, o.result⟩
          | some (.str s) =>
            (walkChildren (get_next_secret srv fuel) f.session
                (s.data.map String.singleton)).map
              fun o => ⟨f.events ++ o.events, o.session, o.result⟩
          | _ => some ⟨f.events, f.session, .error (.typeErr path)⟩

/-- `"".join` over the yielded secrets (line 209); `none` is the
`TypeError` on a non-string element. -/
def joinSecrets : List PyVal → Option String
  | [] => some ""
  | .str s :: rest => (joinSecrets rest).map (s ++ ·)
  | _ => none

/-- Outcome of `run()` (lines 204-211): exit 0 printing the
concatenated secrets, or a non-zero exit carrying the fatal error. -/
inductive RunResult where
  | success (output : String)
  | failure (e : Err)


/-- `run()` (solution.py lines 204-211): consume
`get_next_secret("start")` starting with empty `headers`, join, exit.
`none` again means the traversal fuel ran out. -/
def run (srv : Server) (fuel : Nat) : Option RunResult :=
  match get_next_secret srv fuel none "start" with
  | none => none
  | some o =>
    match o.result with
    | .error e => some (.failure e)
    | .ok secs =>
      match joinSecrets secs with
      | some s => some (.success s)
      | none => some (.failure (.typeErr "join"))

/-- `headerOkB sess evs`: every node request in `evs` that precedes the
first session refresh carries exactly the credential `sess`. -/
def headerOkB (sess : Option String) : List Event → Bool
  | [] => true
  | .getSession :: _ => true
  | .getNode _ s :: rest => s == sess && headerOkB sess rest

/-! ## Lemmas about key normalization -/

theorem charToLower_idem (c : Char) : c.toLower.toLower = c.toLower := by
  unfold Char.toLower
  by_cases h : 65 ≤ c.toNat ∧ c.toNat ≤ 90
  · rw [if_pos h]
    have hv : (c.toNat + 32).isValidChar := Or.inl (by omega)
    have ht : (Char.ofNat (c.toNat + 32)).toNat = c.toNat + 32 := by
      rw [Char.ofNat, dif_pos hv]; rfl
    rw [ht, if_neg (by omega)]
  · rw [if_neg h, if_neg h]

theorem lowerStr_idem (s : String) : lowerStr (lowerStr s) = lowerStr s := by
  cases s with
  | mk data =>
    show String.mk ((data.map Char.toLower).map Char.toLower) = String.mk (data.map Char.toLower)
    rw [List.map_map]
    exact congrArg String.mk (List.map_congr_left fun c _ => charToLower_idem c)

/-- Auxiliary: one step of the `normalize_keys` comprehension. -/
def normStep (acc : Dict) (p : String × PyVal) : Dict :=
  dictInsert acc (lowerStr p.1) p.2

theorem normalize_keys_eq_foldl (data : Dict) :
    normalize_keys data = data.foldl normStep [] := rfl

theorem mem_dictInsert {d : Dict} {k : String} {v : PyVal} {p : String × PyVal}
    (h : p ∈ dictInsert d k v) : p ∈ d ∨ p = (k, v) := by
  unfold dictInsert at h
  split at h
  · rcases List.mem_map.1 h with ⟨q, hq, hqe⟩
    by_cases hq1 : q.1 = k
    · right; rw [if_pos hq1] at hqe; exact hqe.symm
    · left; rw [if_neg hq1] at hqe; exact hqe ▸ hq
  · rcases List.mem_append.1 h with h1 | h1
    · exact Or.inl h1
    · exact Or.inr (List.mem_singleton.1 h1)

theorem key_mem_dictInsert {d : Dict} {k κ : String} {v : PyVal}
    (h : ∃ p ∈ d, p.1 = κ) : ∃ p ∈ dictInsert d k v, p.1 = κ := by
  rcases h with ⟨p, hp, hpκ⟩
  unfold dictInsert
  split
  · refine ⟨if p.1 = k then (k, v) else p, List.mem_map.2 ⟨p, hp, rfl⟩, ?_⟩
    by_cases hpk : p.1 = k
    · rw [if_pos hpk]; exact hpk ▸ hpκ
    · rw [if_neg hpk]; exact hpκ
  · exact ⟨p, List.mem_append_left _ hp, hpκ⟩

theorem key_self_dictInsert (d : Dict) (k : String) (v : PyVal) :
    ∃ p ∈ dictInsert d k v, p.1 = k := by
  unfold dictInsert
  split
  case isTrue h =>
    rcases List.any_eq_true.1 h with ⟨q, hq, hqk⟩
    refine ⟨(k, v), List.mem_map.2 ⟨q, hq, ?_⟩, rfl⟩
    rw [if_pos (by simpa using hqk)]
  case isFalse h =>
    exact ⟨(k, v), List.mem_append_right _ (List.mem_singleton.2 rfl), rfl⟩

theorem keys_dictInsert_of_any {d : Dict} {k : String} (v : PyVal)
    (h : d.any (fun p => p.1 = k) = true) :
    (dictInsert d k v).map Prod.fst = d.map Prod.fst := by
  unfold dictInsert
  rw [if_pos h, List.map_map]
  refine List.map_congr_left fun p _ => ?_
  by_cases hpk : p.1 = k
  · simp [hpk]
  · simp [hpk]

theorem keys_dictInsert_of_not_any {d : Dict} {k : String} (v : PyVal)
    (h : ¬ d.any (fun p => p.1 = k) = true) :
    (dictInsert d k v).map Prod.fst = d.map Prod.fst ++ [k] := by
  unfold dictInsert
  rw [if_neg h, List.map_append]
  rfl

theorem nodup_keys_dictInsert {d : Dict} {k : String} {v : PyVal}
    (h : (d.map Prod.fst).Nodup) : ((dictInsert d k v).map Prod.fst).Nodup := by
  by_cases ha : d.any (fun p => p.1 = k) = true
  · rw [keys_dictInsert_of_any v ha]; exact h
  · rw [keys_dictInsert_of_not_any v ha]
    have hk : k ∉ d.map Prod.fst := by
      intro hmem
      rcases List.mem_map.1 hmem with ⟨q, hq, hqk⟩
      exact ha (List.any_eq_true.2 ⟨q, hq, by simp [hqk]⟩)
    refine List.Nodup.append h (List.nodup_singleton k) ?_
    intro a hal har
    exact hk (List.mem_singleton.1 har ▸ hal)

theorem mem_foldl_normStep {l : Dict} :
    ∀ {acc : Dict} {p : String × PyVal}, p ∈ l.foldl normStep acc →
      p ∈ acc ∨ ∃ q ∈ l, p = (lowerStr q.1, q.2) := by
  induction l with
  | nil => intro acc p h; exact Or.inl h
  | cons q l ih =>
    intro acc p h
    rcases ih h with h1 | ⟨q', hq', he⟩
    · rcases mem_dictInsert h1 with h2 | h2
      · exact Or.inl h2
      · exact Or.inr ⟨q, List.mem_cons_self _ _, h2⟩
    · exact Or.inr ⟨q', List.mem_cons_of_mem _ hq', he⟩

theorem key_mem_foldl_normStep {l : Dict} :
    ∀ {acc : Dict} {κ : String}, (∃ p ∈ acc, p.1 = κ) →
      ∃ p ∈ l.foldl normStep acc, p.1 = κ := by
  induction l with
  | nil => intro acc κ h; exact h
  | cons q l ih => intro acc κ h; exact ih (key_mem_dictInsert h)

theorem input_key_mem_foldl_normStep {l : Dict} :
    ∀ {acc : Dict} {q : String × PyVal}, q ∈ l →
      ∃ p ∈ l.foldl normStep acc, p.1 = lowerStr q.1 := by
  induction l with
  | nil => intro _ _ h; cases h
  | cons q' l ih =>
    intro acc q hq
    rcases List.mem_cons.1 hq with rfl | hq'
    · rw [List.foldl_cons]
      exact key_mem_foldl_normStep (key_self_dictInsert acc (lowerStr q.1) q.2)
    · rw [List.foldl_cons]
      exact ih hq'

theorem nodup_keys_foldl_normStep {l : Dict} :
    ∀ {acc : Dict}, (acc.map Prod.fst).Nodup →
      ((l.foldl normStep acc).map Prod.fst).Nodup := by
  induction l with
  | nil => intro _ h; exact h
  | cons q l ih => intro acc h; exact ih (nodup_keys_dictInsert h)

theorem foldl_normStep_of_lower_fixed {l : Dict} :
    ∀ (acc : Dict), (∀ p ∈ l, lowerStr p.1 = p.1) → (l.map Prod.fst).Nodup →
      (∀ κ ∈ l.map Prod.fst, κ ∉ acc.map Prod.fst) →
      l.foldl normStep acc = acc ++ l := by
  induction l with
  | nil => intro acc _ _ _; simp
  | cons p l ih =>
    intro acc hfix hnd hdisj
    have hp1 : lowerStr p.1 = p.1 := hfix p (List.mem_cons_self _ _)
    have hnotin : ¬ acc.any (fun q => q.1 = p.1) = true := by
      intro hany
      rcases List.any_eq_true.1 hany with ⟨q, hq, hqk⟩
      exact hdisj p.1 (by simp) (List.mem_map.2 ⟨q, hq, by simpa using hqk⟩)
    have hstep : normStep acc p = acc ++ [p] := by
      unfold normStep
      rw [hp1]
      unfold dictInsert
      rw [if_neg hnotin]
    rw [List.foldl_cons, hstep]
    have hnd' : (l.map Prod.fst).Nodup := (List.nodup_cons.1 (by simpa using hnd)).2
    have hne : p.1 ∉ l.map Prod.fst := (List.nodup_cons.1 (by simpa using hnd)).1
    rw [ih (acc ++ [p]) (fun q hq => hfix q (List.mem_cons_of_mem _ hq)) hnd' ?_]
    · simp
    · intro κ hκ hmem
      rcases List.mem_map.1 hmem with ⟨q, hq, hqκ⟩
      rcases List.mem_append.1 hq with hq1 | hq1
      · exact hdisj κ (List.mem_cons_of_mem _ hκ) (List.mem_map.2 ⟨q, hq1, hqκ⟩)
      · rw [List.mem_singleton.1 hq1] at hqκ
        exact hne (by rw [hqκ]; exact hκ)

theorem normalize_keys_idem (m : Dict) :
    normalize_keys (normalize_keys m) = normalize_keys m := by
  rw [normalize_keys_eq_foldl (normalize_keys m)]
  rw [foldl_normStep_of_lower_fixed [] ?_ ?_ (by simp)]
  · simp
  · intro p hp
    rcases @mem_foldl_normStep m [] p hp with h | ⟨q, _, he⟩
    · cases h
    · rw [he]; exact lowerStr_idem q.1
  · exact nodup_keys_foldl_normStep (by simp)

/-! ## Characterization of `request_next` -/

theorem request_next_transport {srv : Server} {p : String} {sess : Option String}
    (n : Nat) (h : srv.respond p sess = none) :
    request_next srv p n sess = ⟨[.getNode p sess], sess, .error (.transportFailure p)⟩ := by
  cases n <;> simp [request_next, h]

theorem request_next_ok {srv : Server} {p : String} {sess : Option String} {r : HttpResponse}
    (n : Nat) (h : srv.respond p sess = some r) (hok : r.ok = true) :
    request_next srv p n sess = ⟨[.getNode p sess], sess, .ok r⟩ := by
  cases n <;> simp [request_next, h, hok]

theorem request_next_retry_exhausted {srv : Server} {p : String} {sess : Option String}
    {r : HttpResponse} (h : srv.respond p sess = some r) (hok : r.ok = false) :
    request_next srv p 0 sess =
      ⟨[.getNode p sess], sess,
        .error (match sess with
          | some s => .sessionRefreshFailure s p r.body
          | none => .sessionKeyError p r.body)⟩ := by
  cases sess <;> simp [request_next, h, hok]

theorem request_next_malformed {srv : Server} {p : String} {sess : Option String}
    {r : HttpResponse} (n : Nat) (h : srv.respond p sess = some r) (hok : r.ok = false)
    (herr : optTruthy (dictGet r.body "error") = false) :
    request_next srv p (n + 1) sess =
      ⟨[.getNode p sess], sess,
        .error (match sess with
          | some s => .malformedErrorResponse s p r.body
          | none => .sessionKeyError p r.body)⟩ := by
  cases sess <;> simp [request_next, h, hok, herr]

theorem request_next_refresh {srv : Server} {p : String} {sess : Option String}
    {r : HttpResponse} (n : Nat) (h : srv.respond p sess = some r) (hok : r.ok = false)
    (herr : optTruthy (dictGet r.body "error") = true) :
    request_next srv p (n + 1) sess =
      ⟨.getNode p sess :: .getSession ::
          (request_next srv p n (some srv.sessionText)).events,
        (request_next srv p n (some srv.sessionText)).session,
        (request_next srv p n (some srv.sessionText)).result⟩ := by
  conv_lhs => rw [request_next]
  rw [h]
  simp [hok, herr]

/-- The credential after a fetch that performed no refresh is the
credential before it. -/
theorem request_next_session_unchanged (srv : Server) (p : String) :
    ∀ (n : Nat) (sess : Option String),
      Event.getSession ∉ (request_next srv p n sess).events →
      (request_next srv p n sess).session = sess := by
  intro n sess h
  rcases hr : srv.respond p sess with _ | r
  · simp [request_next_transport n hr]
  · by_cases hok : r.ok
    · simp [request_next_ok n hr hok]
    · cases n with
      | zero => simp [request_next_retry_exhausted hr (by simpa using hok)]
      | succ n =>
        by_cases herr : optTruthy (dictGet r.body "error") = false
        · simp [request_next_malformed n hr (by simpa using hok) herr]
        · exfalso
          apply h
          rw [request_next_refresh n hr (by simpa using hok) (by simpa using herr)]
          simp

/-- Every node request before the first refresh carries the incoming
credential. -/
theorem request_next_headerOk (srv : Server) (p : String) :
    ∀ (n : Nat) (sess : Option String),
      headerOkB sess (request_next srv p n sess).events = true := by
  intro n sess
  rcases hr : srv.respond p sess with _ | r
  · simp [request_next_transport n hr, headerOkB]
  · by_cases hok : r.ok
    · simp [request_next_ok n hr hok, headerOkB]
    · cases n with
      | zero =>
        rw [request_next_retry_exhausted hr (by simpa using hok)]
        simp [headerOkB]
      | succ n =>
        by_cases herr : optTruthy (dictGet r.body "error") = false
        · rw [request_next_malformed n hr (by simpa using hok) herr]
          simp [headerOkB]
        · rw [request_next_refresh n hr (by simpa using hok) (by simpa using herr)]
          simp [headerOkB]

/-! ## Characterization of the child loop and of `get_next_secret` -/

/-- Prefix already-yielded secrets onto a child-walk result. -/
def resPrepend (secs : List PyVal) : Except Err (List PyVal) → Except Err (List PyVal)
  | .ok r => .ok (secs ++ r)
  | .error e => .error e

theorem resPrepend_resPrepend (a b : List PyVal) (r : Except Err (List PyVal)) :
    resPrepend a (resPrepend b r) = resPrepend (a ++ b) r := by
  cases r <;> simp [resPrepend]

theorem foldl_childStep_none (trav : Option String → String → Option TravOut) :
    ∀ paths : List String, paths.foldl (childStep trav) none = none := by
  intro paths
  induction paths with
  | nil => rfl
  | cons p paths ih => rw [List.foldl_cons]; exact ih

theorem childStep_frozen (trav : Option String → String → Option TravOut)
    {o : TravOut} {e : Err} (he : o.result = .error e) (p : String) :
    childStep trav (some o) p = some o := by
  obtain ⟨evs, sess, res⟩ := o
  cases res with
  | error e' => rfl
  | ok secs => exact absurd he (by simp)

theorem childStep_ok_eq (trav : Option String → String → Option TravOut)
    (evs : List Event) (sess : Option String) (secs : List PyVal) (p : String) :
    childStep trav (some ⟨evs, sess, .ok secs⟩) p =
      match trav sess p with
      | none => none
      | some o2 =>
        match o2.result with
        | .ok secs2 => some ⟨evs ++ o2.events, o2.session, .ok (secs ++ secs2)⟩
        | .error e => some ⟨evs ++ o2.events, o2.session, .error e⟩ := rfl

theorem foldl_childStep_error (trav : Option String → String → Option TravOut)
    {o : TravOut} {e : Err} (he : o.result = .error e) :
    ∀ paths : List String, paths.foldl (childStep trav) (some o) = some o := by
  intro paths
  induction paths with
  | nil => rfl
  | cons p paths ih =>
    rw [List.foldl_cons, childStep_frozen trav he]
    exact ih

/-- Running the child loop from a non-trivial accumulator is the fresh
run with the accumulated events and secrets prefixed. -/
theorem foldl_childStep_shift (trav : Option String → String → Option TravOut) :
    ∀ (paths : List String) (evs : List Event) (sess : Option String) (secs : List PyVal),
      paths.foldl (childStep trav) (some ⟨evs, sess, .ok secs⟩) =
        (walkChildren trav sess paths).map
          fun o => ⟨evs ++ o.events, o.session, resPrepend secs o.result⟩ := by
  intro paths
  induction paths with
  | nil =>
    intro evs sess secs
    simp [walkChildren, resPrepend]
  | cons p paths ih =>
    intro evs sess secs
    rw [walkChildren, List.foldl_cons, List.foldl_cons, childStep_ok_eq, childStep_ok_eq]
    rcases ht : trav sess p with _ | o2
    · show List.foldl (childStep trav) none paths =
        Option.map (fun o => (⟨evs ++ o.events, o.session, resPrepend secs o.result⟩ : TravOut))
          (List.foldl (childStep trav) none paths)
      rw [foldl_childStep_none]
      rfl
    · obtain ⟨ev2, s2, res2⟩ := o2
      cases res2 with
      | error e =>
        rw [foldl_childStep_error trav rfl, foldl_childStep_error trav rfl]
        simp [resPrepend]
      | ok secs2 =>
        simp only [List.nil_append]
        rw [ih (evs ++ ev2) s2 (secs ++ secs2), ih ev2 s2 secs2]
        rcases hw : walkChildren trav s2 paths with _ | o3
        · rfl
        · obtain ⟨ev3, s3, res3⟩ := o3
          cases res3 <;> simp [resPrepend]

/-- The child loop over an initial segment that succeeds, continued over
the rest. -/
theorem walkChildren_append (trav : Option String → String → Option TravOut)
    {l₁ : List String} {e₁ : List Event} {s₁ : Option String} {r₁ : List PyVal}
    (sess : Option String) (l₂ : List String)
    (h : walkChildren trav sess l₁ = some ⟨e₁, s₁, .ok r₁⟩) :
    walkChildren trav sess (l₁ ++ l₂) =
      (walkChildren trav s₁ l₂).map
        fun o => ⟨e₁ ++ o.events, o.session, resPrepend r₁ o.result⟩ := by
  rw [walkChildren, List.foldl_append]
  rw [walkChildren] at h
  rw [h]
  exact foldl_childStep_shift trav l₂ e₁ s₁ r₁

theorem get_next_secret_fetch_error {srv : Server} {p : String} {sess : Option String}
    {e : Err} (fuel : Nat) (h : (request_next srv p 1 sess).result = .error e) :
    get_next_secret srv (fuel + 1) sess p =
      some ⟨(request_next srv p 1 sess).events, (request_next srv p 1 sess).session,
        .error e⟩ := by
  rw [get_next_secret]
  rw [h]

theorem get_next_secret_leaf {srv : Server} {p : String} {sess : Option String}
    {r : HttpResponse} {v : PyVal} (fuel : Nat)
    (hr : srv.respond p sess = some r) (hok : r.ok = true)
    (hsec : dictGet (normalize_keys r.body) "secret" = some v) :
    get_next_secret srv (fuel + 1) sess p =
      some ⟨[.getNode p sess], sess, .ok [v]⟩ := by
  rw [get_next_secret, request_next_ok 1 hr hok]
  simp [hsec]

theorem get_next_secret_missing_next {srv : Server} {p : String} {sess : Option String}
    {r : HttpResponse} (fuel : Nat)
    (hr : srv.respond p sess = some r) (hok : r.ok = true)
    (hsec : dictGet (normalize_keys r.body) "secret" = none)
    (hnext : optTruthy (dictGet (normalize_keys r.body) "next") = false) :
    get_next_secret srv (fuel + 1) sess p =
      some ⟨[.getNode p sess], sess,
        .error (.missingNextKey sess p (normalize_keys r.body))⟩ := by
  rw [get_next_secret, request_next_ok 1 hr hok]
  simp [hsec, hnext]

theorem get_next_secret_branch {srv : Server} {p : String} {sess : Option String}
    {r : HttpResponse} {l : List PyVal} {paths : List String} (fuel : Nat)
    (hr : srv.respond p sess = some r) (hok : r.ok = true)
    (hsec : dictGet (normalize_keys r.body) "secret" = none)
    (hnext : dictGet (normalize_keys r.body) "next" = some (.list l))
    (hne : l ≠ [])
    (hstr : asStrings l = some paths) :
    get_next_secret srv (fuel + 1) sess p =
      (walkChildren (get_next_secret srv fuel) sess paths).map
        fun o => ⟨.getNode p sess :: o.events, o.session, o.result⟩ := by
  rw [get_next_secret, request_next_ok 1 hr hok]
  have htr : optTruthy (some (PyVal.list l)) = true := by
    cases l with
    | nil => exact absurd rfl hne
    | cons a l => rfl
  simp [hsec, hnext, htr, hstr]

/-! ## Well-formed finite trees and the depth-first traversal theorem -/

/-- A finite scavenger-hunt tree: a leaf carries a secret, a branch
carries its children as (path, subtree) pairs in `next`-list order. -/
inductive PTree where
  | leaf (secret : String) : PTree
  | branch (children : List (String × PTree)) : PTree

/-- The leaves' secrets in depth-first, left-to-right order. -/
def PTree.secrets : PTree → List String
  | .leaf s => [s]
  | .branch [] => []
  | .branch (c :: cs) => c.2.secrets ++ (PTree.branch cs).secrets
termination_by t => sizeOf t
decreasing_by
  all_goals
    try obtain ⟨c1, c2⟩ := c
    simp
    try omega

/-- A fuel bound sufficient to traverse the tree. -/
def PTree.depth : PTree → Nat
  | .leaf _ => 1
  | .branch [] => 1
  | .branch (c :: cs) => max (c.2.depth + 1) (PTree.branch cs).depth
termination_by t => sizeOf t
decreasing_by
  all_goals
    try obtain ⟨c1, c2⟩ := c
    simp
    try omega

theorem PTree.secrets_branch (cs : List (String × PTree)) :
    (PTree.branch cs).secrets = (cs.map fun c => c.2.secrets).flatten := by
  induction cs with
  | nil => simp [PTree.secrets]
  | cons c cs ih => simp [PTree.secrets, ih]

theorem PTree.depth_child {cs : List (String × PTree)} {c : String × PTree}
    (hc : c ∈ cs) : c.2.depth + 1 ≤ (PTree.branch cs).depth := by
  induction cs with
  | nil => cases hc
  | cons c' cs ih =>
    rcases List.mem_cons.1 hc with rfl | hc'
    · rw [PTree.depth]
      exact le_max_left _ _
    · calc c.2.depth + 1 ≤ (PTree.branch cs).depth := ih hc'
        _ ≤ (PTree.branch (c' :: cs)).depth := by
          rw [PTree.depth]
          exact le_max_right _ _

/-- `srv` presents the well-formed finite tree `t` at path `p`: every
fetch succeeds (whatever the credential), leaves carry their secret
under the normalized `secret` key, branches carry exactly their
children's paths under the normalized `next` key and no `secret`. -/
inductive GoodAt (srv : Server) : String → PTree → Prop where
  | leaf (p : String) (s : String)
      (h : ∀ sess, ∃ body, srv.respond p sess = some ⟨true, body⟩ ∧
        dictGet (normalize_keys body) "secret" = some (.str s)) :
      GoodAt srv p (.leaf s)
  | branch (p : String) (cs : List (String × PTree))
      (hne : cs ≠ [])
      (h : ∀ sess, ∃ body, srv.respond p sess = some ⟨true, body⟩ ∧
        dictGet (normalize_keys body) "secret" = none ∧
        dictGet (normalize_keys body) "next" =
          some (.list (cs.map fun c => PyVal.str c.1)))
      (hcs : ∀ c ∈ cs, GoodAt srv c.1 c.2) :
      GoodAt srv p (.branch cs)

theorem asStrings_map_str : ∀ ps : List String, asStrings (ps.map PyVal.str) = some ps := by
  intro ps
  induction ps with
  | nil => rfl
  | cons p ps ih => simp [asStrings, ih]

/-- The child loop over children whose subtrees all traverse cleanly. -/
theorem walkChildren_all_good (trav : Option String → String → Option TravOut) :
    ∀ (cs : List (String × PTree)),
      (∀ c ∈ cs, ∀ sess, ∃ evs, trav sess c.1 =
        some ⟨evs, sess, .ok (c.2.secrets.map PyVal.str)⟩) →
      ∀ sess, ∃ evs, walkChildren trav sess (cs.map fun c => c.1) =
        some ⟨evs, sess, .ok (((cs.map fun c => c.2.secrets).flatten).map PyVal.str)⟩ := by
  intro cs
  induction cs with
  | nil =>
    intro _ sess
    refine ⟨[], ?_⟩
    simp [walkChildren]
  | cons c cs ih =>
    intro h sess
    obtain ⟨evs₁, h₁⟩ := h c (List.mem_cons_self _ _) sess
    obtain ⟨evs₂, h₂⟩ := ih (fun c' hc' => h c' (List.mem_cons_of_mem _ hc')) sess
    refine ⟨evs₁ ++ evs₂, ?_⟩
    rw [List.map_cons, walkChildren, List.foldl_cons, childStep_ok_eq, h₁]
    show List.foldl (childStep trav)
      (some ⟨[] ++ evs₁, sess, .ok ([] ++ c.2.secrets.map PyVal.str)⟩) (cs.map fun c => c.1) = _
    simp only [List.nil_append]
    rw [foldl_childStep_shift trav (cs.map fun c => c.1) evs₁ sess (c.2.secrets.map PyVal.str)]
    show Option.map _ (walkChildren trav sess (cs.map fun c => c.1)) = _
    rw [h₂]
    simp [resPrepend]

/-- **Depth-first traversal of a well-formed tree.**  On a server
presenting a finite tree whose every path ends in a leaf and whose
every branch has a non-empty child list, the traversal succeeds with
exactly the leaves' secrets in depth-first left-to-right order, and
the session credential is never touched. -/
theorem goodAt_traverse {srv : Server} {p : String} {t : PTree} (h : GoodAt srv p t) :
    ∀ fuel : Nat, t.depth ≤ fuel → ∀ sess : Option String,
      ∃ evs, get_next_secret srv fuel sess p =
        some ⟨evs, sess, .ok (t.secrets.map PyVal.str)⟩ := by
  induction h with
  | leaf p s hs =>
    intro fuel hfuel sess
    obtain ⟨fuel, rfl⟩ : ∃ f, fuel = f + 1 := by
      rw [PTree.depth] at hfuel
      exact ⟨fuel - 1, by omega⟩
    obtain ⟨body, hr, hsec⟩ := hs sess
    refine ⟨[.getNode p sess], ?_⟩
    rw [get_next_secret_leaf fuel hr rfl hsec]
    simp [PTree.secrets]
  | branch p cs hne hresp hcs ih =>
    intro fuel hfuel sess
    obtain ⟨fuel, rfl⟩ : ∃ f, fuel = f + 1 := by
      rcases hcons : cs with _ | ⟨c, cs'⟩
      · exact absurd hcons hne
      · subst hcons
        rw [PTree.depth] at hfuel
        exact ⟨fuel - 1, by omega⟩
    obtain ⟨body, hr, hsec, hnext⟩ := hresp sess
    have hstr : asStrings (cs.map fun c => PyVal.str c.1) = some (cs.map fun c => c.1) := by
      have hmm : (cs.map fun c => PyVal.str c.1) = (cs.map fun c => c.1).map PyVal.str := by
        rw [List.map_map]
        rfl
      rw [hmm, asStrings_map_str]
    rw [get_next_secret_branch fuel hr rfl hsec hnext (by simpa using hne) hstr]
    obtain ⟨evs, hw⟩ := walkChildren_all_good (get_next_secret srv fuel) cs
      (fun c hc sess' => ih c hc fuel (by have := PTree.depth_child hc; omega) sess') sess
    rw [hw]
    refine ⟨.getNode p sess :: evs, ?_⟩
    simp [PTree.secrets_branch]

/-! ## Session-credential discipline -/

theorem headerOkB_append {sess : Option String} {e₁ e₂ : List Event}
    (h₁ : headerOkB sess e₁ = true)
    (h₂ : Event.getSession ∈ e₁ ∨ headerOkB sess e₂ = true) :
    headerOkB sess (e₁ ++ e₂) = true := by
  induction e₁ with
  | nil =>
    rcases h₂ with h | h
    · cases h
    · simpa using h
  | cons ev e₁ ih =>
    cases ev with
    | getSession => rfl
    | getNode q s =>
      rw [List.cons_append]
      simp only [headerOkB, Bool.and_eq_true] at h₁ ⊢
      refine ⟨h₁.1, ih h₁.2 ?_⟩
      rcases h₂ with h | h
      · rcases List.mem_cons.mp h with he | he
        · cases he
        · exact Or.inl he
      · exact Or.inr h

/-- Header discipline for the child loop, threading an arbitrary
already-produced prefix of events. -/
theorem walk_header_aux (trav : Option String → String → Option TravOut)
    (htrav : ∀ (s : Option String) (q : String) (o' : TravOut), trav s q = some o' →
      (Event.getSession ∉ o'.events → o'.session = s) ∧ headerOkB s o'.events = true) :
    ∀ (paths : List String) (evs : List Event) (sess₀ sess : Option String)
      (secs : List PyVal) (o : TravOut),
      headerOkB sess evs = true →
      (Event.getSession ∈ evs ∨ sess₀ = sess) →
      paths.foldl (childStep trav) (some ⟨evs, sess₀, .ok secs⟩) = some o →
      (Event.getSession ∉ o.events → o.session = sess) ∧ headerOkB sess o.events = true := by
  intro paths
  induction paths with
  | nil =>
    intro evs sess₀ sess secs o hok hdisj h
    rw [List.foldl_nil] at h
    obtain rfl : (⟨evs, sess₀, .ok secs⟩ : TravOut) = o := by injection h
    refine ⟨?_, hok⟩
    intro hnot
    rcases hdisj with h | h
    · exact absurd h hnot
    · exact h
  | cons q paths ih =>
    intro evs sess₀ sess secs o hok hdisj h
    rw [List.foldl_cons, childStep_ok_eq] at h
    rcases ht : trav sess₀ q with _ | o2
    · rw [ht] at h
      rw [foldl_childStep_none] at h
      cases h
    · rw [ht] at h
      obtain ⟨hsess2, hok2⟩ := htrav sess₀ q o2 ht
      have hok2' : Event.getSession ∈ evs ∨ headerOkB sess o2.events = true := by
        rcases hdisj with hd | hd
        · exact Or.inl hd
        · rw [← hd]
          exact Or.inr hok2
      obtain ⟨ev2, s2, res2⟩ := o2
      cases res2 with
      | error e =>
        rw [foldl_childStep_error trav rfl] at h
        obtain rfl : (⟨evs ++ ev2, s2, .error e⟩ : TravOut) = o := by injection h
        refine ⟨?_, headerOkB_append hok hok2'⟩
        intro hnot
        rw [List.mem_append] at hnot
        push_neg at hnot
        rcases hdisj with hd | hd
        · exact absurd hd hnot.1
        · rw [← hd]
          exact hsess2 hnot.2
      | ok secs2 =>
        refine ih (evs ++ ev2) s2 sess (secs ++ secs2) o (headerOkB_append hok hok2') ?_ h
        by_cases hm : Event.getSession ∈ ev2
        · exact Or.inl (List.mem_append.mpr (Or.inr hm))
        · have hs2 : s2 = sess₀ := hsess2 hm
          rcases hdisj with hd | hd
          · exact Or.inl (List.mem_append.mpr (Or.inl hd))
          · exact Or.inr (hs2.trans hd)

/-- Header discipline for the whole traversal: the credential changes
only when a refresh happened, and every node request before the first
refresh carries the credential the traversal started with. -/
theorem trav_header (srv : Server) :
    ∀ (fuel : Nat) (sess : Option String) (p : String) (o : TravOut),
      get_next_secret srv fuel sess p = some o →
      (Event.getSession ∉ o.events → o.session = sess) ∧
        headerOkB sess o.events = true := by
  intro fuel
  induction fuel with
  | zero =>
    intro sess p o h
    cases h
  | succ fuel ih =>
    intro sess p o h
    have hreq1 : Event.getSession ∉ (request_next srv p 1 sess).events →
        (request_next srv p 1 sess).session = sess :=
      request_next_session_unchanged srv p 1 sess
    have hreq2 : headerOkB sess (request_next srv p 1 sess).events = true :=
      request_next_headerOk srv p 1 sess
    have hfsame : ∀ res : Except Err (List PyVal),
        o = ⟨(request_next srv p 1 sess).events, (request_next srv p 1 sess).session, res⟩ →
        (Event.getSession ∉ o.events → o.session = sess) ∧
          headerOkB sess o.events = true := by
      rintro res rfl
      exact ⟨hreq1, hreq2⟩
    have hwalk : ∀ paths : List String,
        (walkChildren (get_next_secret srv fuel) (request_next srv p 1 sess).session
            paths).map
          (fun o' => (⟨(request_next srv p 1 sess).events ++ o'.events, o'.session,
            o'.result⟩ : TravOut)) = some o →
        (Event.getSession ∉ o.events → o.session = sess) ∧
          headerOkB sess o.events = true := by
      intro paths hmap
      rcases Option.map_eq_some'.mp hmap with ⟨o', hw, rfl⟩
      have hfold : paths.foldl (childStep (get_next_secret srv fuel))
          (some ⟨(request_next srv p 1 sess).events,
            (request_next srv p 1 sess).session, .ok []⟩) =
          some ⟨(request_next srv p 1 sess).events ++ o'.events, o'.session, o'.result⟩ := by
        rw [foldl_childStep_shift, hw]
        obtain ⟨ev', s', res'⟩ := o'
        cases res' <;> simp [resPrepend]
      have hdisj : Event.getSession ∈ (request_next srv p 1 sess).events ∨
          (request_next srv p 1 sess).session = sess := by
        by_cases hm : Event.getSession ∈ (request_next srv p 1 sess).events
        · exact Or.inl hm
        · exact Or.inr (hreq1 hm)
      exact walk_header_aux (get_next_secret srv fuel) (fun s q o'' => ih s q o'') paths
        (request_next srv p 1 sess).events (request_next srv p 1 sess).session sess []
        _ hreq2 hdisj hfold
    rw [get_next_secret] at h
    rcases hres : (request_next srv p 1 sess).result with e | r
    · rw [hres] at h
      exact hfsame _ (by injection h; subst_eqs; rfl)
    · rw [hres] at h
      dsimp only at h
      rcases hsec : dictGet (normalize_keys r.body) "secret" with _ | v
      · rw [hsec] at h
        dsimp only at h
        by_cases hnx : optTruthy (dictGet (normalize_keys r.body) "next") = false
        · rw [if_pos hnx] at h
          exact hfsame _ (by injection h; subst_eqs; rfl)
        · rw [if_neg hnx] at h
          rcases hnxt : dictGet (normalize_keys r.body) "next" with _ | v2
          · rw [hnxt] at h
            dsimp only at h
            exact hfsame _ (by injection h; subst_eqs; rfl)
          · rw [hnxt] at h
            cases v2 with
            | list l =>
              dsimp only at h
              rcases hstr : asStrings l with _ | paths
              · rw [hstr] at h
                dsimp only at h
                exact hfsame _ (by injection h; subst_eqs; rfl)
              · rw [hstr] at h
                dsimp only at h
                exact hwalk paths h
            | str s => exact hwalk _ h
            | null => exact hfsame _ (by injection h; subst_eqs; rfl)
            | bool b => exact hfsame _ (by injection h; subst_eqs; rfl)
            | int n => exact hfsame _ (by injection h; subst_eqs; rfl)
      · rw [hsec] at h
        dsimp only at h
        exact hfsame _ (by injection h; subst_eqs; rfl)

/-! ## Claim theorems -/

/-- **C1.**  For every finite tree in which each branch node's `next`
list is non-empty and every path ends at a leaf, the traversal entry
point `get_next_secret` yields exactly the secrets of the leaves, one
element per leaf, in depth-first left-to-right order: each child list
is visited in listed order and all secrets of one child's subtree
precede the next sibling's. -/
theorem c1_collect_secrets_dfs (srv : Server) (p : String) (t : PTree)
    (h : GoodAt srv p t) (fuel : Nat) (hfuel : t.depth ≤ fuel) (sess : Option String) :
    ∃ evs, get_next_secret srv fuel sess p =
      some ⟨evs, sess, .ok (t.secrets.map PyVal.str)⟩ :=
  goodAt_traverse h fuel hfuel sess

/-- Server presenting the tree start → [a, b], a → leaf X,
b → [c], c → leaf Y. -/
def c1srv : Server where
  respond := fun p _ =>
    if p = "start" then some ⟨true, [("next", .list [.str "a", .str "b"])]⟩
    else if p = "a" then some ⟨true, [("secret", .str "X")]⟩
    else if p = "b" then some ⟨true, [("next", .list [.str "c"])]⟩
    else if p = "c" then some ⟨true, [("secret", .str "Y")]⟩
    else none
  sessionText := "t"

def c1tree : PTree := .branch [("a", .leaf "X"), ("b", .branch [("c", .leaf "Y")])]

theorem c1_collect_secrets_dfs_witness :
    ∃ evs, get_next_secret c1srv 3 none "start" =
      some ⟨evs, none, .ok (c1tree.secrets.map PyVal.str)⟩ := by
  have hg : GoodAt c1srv "start" c1tree := by
    refine GoodAt.branch _ _ (by simp [c1tree]) (fun sess => ⟨_, rfl, rfl, rfl⟩) ?_
    intro c hc
    simp [c1tree] at hc
    rcases hc with rfl | rfl
    · exact GoodAt.leaf _ _ (fun sess => ⟨_, rfl, rfl⟩)
    · refine GoodAt.branch _ _ (by simp) (fun sess => ⟨_, rfl, rfl, rfl⟩) ?_
      intro c hc
      simp at hc
      subst hc
      exact GoodAt.leaf _ _ (fun sess => ⟨_, rfl, rfl⟩)
  have hdepth : c1tree.depth ≤ 3 := by
    simp [c1tree, PTree.depth]
  exact c1_collect_secrets_dfs c1srv "start" c1tree hg 3 hdepth none

/-- **C6.**  `normalize_keys` returns a mapping whose every entry is an
original entry with its key lower-cased and its value unchanged, every
original key appears lower-cased in the output, and the function is
idempotent.  It is a pure Lean function, so it has no side effects by
construction. -/
theorem c6_normalize_keys_spec (m : Dict) :
    (∀ p ∈ normalize_keys m, ∃ q ∈ m, p.1 = lowerStr q.1 ∧ p.2 = q.2) ∧
    (∀ q ∈ m, ∃ p ∈ normalize_keys m, p.1 = lowerStr q.1) ∧
    normalize_keys (normalize_keys m) = normalize_keys m := by
  refine ⟨?_, ?_, normalize_keys_idem m⟩
  · intro p hp
    rw [normalize_keys_eq_foldl] at hp
    rcases mem_foldl_normStep hp with h | ⟨q, hq, he⟩
    · cases h
    · exact ⟨q, hq, by rw [he], by rw [he]⟩
  · intro q hq
    rw [normalize_keys_eq_foldl]
    exact input_key_mem_foldl_normStep hq

theorem c6_normalize_keys_spec_witness :
    normalize_keys (normalize_keys [("Secret", PyVal.str "x"), ("NEXT", PyVal.null)]) =
      normalize_keys [("Secret", PyVal.str "x"), ("NEXT", PyVal.null)] :=
  (c6_normalize_keys_spec [("Secret", PyVal.str "x"), ("NEXT", PyVal.null)]).2.2

/-- **C9.**  A successfully fetched node whose normalized response has a
`secret` key is a leaf even when it also carries a non-empty `next`
list: the secret is the single yielded element and the single request
issued is the node's own fetch — none of the `next` paths is ever
visited. -/
theorem c9_leaf_priority (srv : Server) (p : String) (sess : Option String)
    (r : HttpResponse) (v : PyVal) (l : List PyVal) (fuel : Nat)
    (hr : srv.respond p sess = some r) (hok : r.ok = true)
    (hsec : dictGet (normalize_keys r.body) "secret" = some v)
    (hnext : dictGet (normalize_keys r.body) "next" = some (.list l))
    (hne : l ≠ []) :
    get_next_secret srv (fuel + 1) sess p =
      some ⟨[.getNode p sess], sess, .ok [v]⟩ :=
  get_next_secret_leaf fuel hr hok hsec

def c9wsrv : Server where
  respond := fun p _ =>
    if p = "n" then some ⟨true, [("secret", .str "S"), ("next", .list [.str "u"])]⟩
    else if p = "u" then some ⟨true, [("secret", .str "never")]⟩
    else none
  sessionText := "t"

theorem c9_leaf_priority_witness :
    get_next_secret c9wsrv 5 none "n" =
      some ⟨[.getNode "n" none], none, .ok [.str "S"]⟩ :=
  c9_leaf_priority c9wsrv "n" none ⟨true, [("secret", .str "S"), ("next", .list [.str "u"])]⟩
    (.str "S") [.str "u"] 4 rfl rfl rfl rfl (by simp)

/-- **C10.**  Leaf classification tests key presence while branch
classification tests truthiness: a `secret` equal to the empty string
is still a leaf and contributes nothing to the joined output, while a
`next` that is present but falsy (e.g. null) is, with no `secret`,
classified exactly like an absent `next`: `MissingNextKey`. -/
theorem c10_truthiness (srv : Server) (p : String) (sess : Option String)
    (r : HttpResponse) (fuel : Nat)
    (hr : srv.respond p sess = some r) (hok : r.ok = true) :
    (dictGet (normalize_keys r.body) "secret" = some (.str "") →
      get_next_secret srv (fuel + 1) sess p =
        some ⟨[.getNode p sess], sess, .ok [.str ""]⟩ ∧
      joinSecrets [.str ""] = some "") ∧
    (dictGet (normalize_keys r.body) "secret" = none →
      optTruthy (dictGet (normalize_keys r.body) "next") = false →
      get_next_secret srv (fuel + 1) sess p =
        some ⟨[.getNode p sess], sess,
          .error (.missingNextKey sess p (normalize_keys r.body))⟩) := by
  constructor
  · intro hsec
    exact ⟨get_next_secret_leaf fuel hr hok hsec, rfl⟩
  · intro hsec hnx
    exact get_next_secret_missing_next fuel hr hok hsec hnx

def c10wsrv : Server where
  respond := fun p _ =>
    if p = "e" then some ⟨true, [("secret", .str "")]⟩
    else if p = "f" then some ⟨true, [("next", .null)]⟩
    else none
  sessionText := "t"

theorem c10_truthiness_witness :
    (get_next_secret c10wsrv 1 none "e" =
        some ⟨[.getNode "e" none], none, .ok [.str ""]⟩ ∧
      joinSecrets [.str ""] = some "") ∧
    get_next_secret c10wsrv 1 none "f" =
      some ⟨[.getNode "f" none], none,
        .error (.missingNextKey none "f" [("next", PyVal.null)])⟩ := by
  constructor
  · exact (c10_truthiness c10wsrv "e" none ⟨true, [("secret", .str "")]⟩ 0 rfl rfl).1 rfl
  · exact (c10_truthiness c10wsrv "f" none ⟨true, [("next", .null)]⟩ 0 rfl rfl).2 rfl rfl

/-- **C3** (amended).  A successfully fetched node whose normalized
response has no `secret` and whose `next` is absent or the empty list
fails with `MissingNextKey` — the same error kind in both cases — and
the error context identifies the offending path and the *normalized*
response (the code logs `response_data`, the key-normalized mapping,
not the raw body: solution.py line 76). -/
theorem c3_missing_next_key (srv : Server) (p : String) (sess : Option String)
    (r : HttpResponse) (fuel : Nat)
    (hr : srv.respond p sess = some r) (hok : r.ok = true)
    (hsec : dictGet (normalize_keys r.body) "secret" = none)
    (hnext : dictGet (normalize_keys r.body) "next" = none ∨
      dictGet (normalize_keys r.body) "next" = some (.list [])) :
    get_next_secret srv (fuel + 1) sess p =
      some ⟨[.getNode p sess], sess,
        .error (.missingNextKey sess p (normalize_keys r.body))⟩ := by
  refine get_next_secret_missing_next fuel hr hok hsec ?_
  rcases hnext with h | h <;> rw [h] <;> rfl

def c3xsrv : Server where
  respond := fun p _ =>
    if p = "start" then some ⟨true, [("NEXT", PyVal.list [])]⟩ else none
  sessionText := "t"

/-- **C3 counterexample.**  The claim says the error identifies the
*raw* response.  On a raw body `[("NEXT", [])]` the raised
`MissingNextKey` carries the normalized mapping `[("next", [])]`; the
raw body does not even contain the key `"next"` that the error context
reports, so the context shows the normalized, not the raw, response. -/
theorem c3_raw_response_counterexample :
    get_next_secret c3xsrv 1 none "start" =
      some ⟨[.getNode "start" none], none,
        .error (.missingNextKey none "start" [("next", PyVal.list [])])⟩ ∧
    c3xsrv.respond "start" none = some ⟨true, [("NEXT", PyVal.list [])]⟩ ∧
    dictGet [(("NEXT" : String), PyVal.list [])] "next" = none :=
  ⟨rfl, rfl, rfl⟩

def c3wsrv : Server where
  respond := fun p _ =>
    if p = "g" then some ⟨true, []⟩
    else if p = "h" then some ⟨true, [("next", PyVal.list [])]⟩
    else none
  sessionText := "t"

theorem c3_missing_next_key_witness :
    get_next_secret c3wsrv 1 none "g" =
      some ⟨[.getNode "g" none], none, .error (.missingNextKey none "g" [])⟩ ∧
    get_next_secret c3wsrv 1 none "h" =
      some ⟨[.getNode "h" none], none,
        .error (.missingNextKey none "h" [("next", PyVal.list [])])⟩ := by
  constructor
  · exact c3_missing_next_key c3wsrv "g" none ⟨true, []⟩ 0 rfl rfl rfl (Or.inl rfl)
  · exact c3_missing_next_key c3wsrv "h" none ⟨true, [("next", PyVal.list [])]⟩ 0
      rfl rfl rfl (Or.inr rfl)

def c4srv : Server where
  respond := fun p _ => if p = "start" then some ⟨false, []⟩ else none
  sessionText := "t"

/-- **C4** (code bug).  A first attempt failing without an `error`
field is meant to fail with `MalformedErrorResponse` and indeed
performs no refresh and no retry, and leaves the credential unchanged
— but when no `Session` credential exists yet, the code first raises
`KeyError("Session")` evaluating `headers["Session"]` in the
diagnostic call (solution.py line 117; contrast the safe
`headers.get("Session")` on line 76), so the failure escapes as a
`KeyError`, not as the intended malformed-response error.  With a
credential present the intended classification is reached. -/
theorem c4_malformed_failure_eval :
    request_next c4srv "start" 1 none =
      ⟨[.getNode "start" none], none, .error (.sessionKeyError "start" [])⟩ ∧
    request_next c4srv "start" 1 (some "S") =
      ⟨[.getNode "start" (some "S")], some "S",
        .error (.malformedErrorResponse "S" "start" [])⟩ :=
  ⟨rfl, rfl⟩

def c2xsrv : Server where
  respond := fun p _ =>
    if p = "p" then some ⟨false, [("error", PyVal.str "")]⟩ else none
  sessionText := "t"

/-- **C2 counterexample.**  The claim promises one refresh and one
retry for every failure whose body has an `error` field.  The code
tests `response_json.get("error")` for *truthiness* on the *raw* body,
so a failure body carrying `error: ""` (the field is present) produces
no refresh (no `getSession` request) and no retry: it is classified as
a malformed error response instead. -/
theorem c2_falsy_error_counterexample :
    request_next c2xsrv "p" 1 (some "S") =
      ⟨[.getNode "p" (some "S")], some "S",
        .error (.malformedErrorResponse "S" "p" [("error", PyVal.str "")])⟩ :=
  rfl

/-- **C2** (amended).  For a first attempt that fails with a *truthy*
`error` field under the raw lower-case key, the Fetcher performs
exactly one credential refresh — one `getSession` request, storing the
returned token as the new credential — and exactly one retry of the
same path; if the retry also fails (for any reason), it fails with
`SessionRefreshFailure` and performs no further refresh or retry. -/
theorem c2_refresh_retry_once (srv : Server) (p : String) (sess : Option String)
    (r : HttpResponse)
    (hr : srv.respond p sess = some r) (hok : r.ok = false)
    (herr : optTruthy (dictGet r.body "error") = true) :
    request_next srv p 1 sess =
      ⟨[.getNode p sess, .getSession, .getNode p (some srv.sessionText)],
        some srv.sessionText,
        match srv.respond p (some srv.sessionText) with
        | none => .error (.transportFailure p)
        | some r2 =>
          if r2.ok = true then .ok r2
          else .error (.sessionRefreshFailure srv.sessionText p r2.body)⟩ := by
  rw [request_next_refresh 0 hr hok herr]
  rcases hr2 : srv.respond p (some srv.sessionText) with _ | r2
  · rw [request_next_transport 0 hr2]
  · by_cases hok2 : r2.ok = true
    · rw [request_next_ok 0 hr2 hok2]
      simp [hok2]
    · rw [request_next_retry_exhausted hr2 (by simpa using hok2)]
      simp [hok2]

def c2wsrv : Server where
  respond := fun p s =>
    if p = "p" then
      (if s = some "tok" then some ⟨false, [("error", PyVal.str "still")]⟩
       else some ⟨false, [("error", PyVal.str "auth")]⟩)
    else none
  sessionText := "tok"

theorem c2_refresh_retry_once_witness :
    request_next c2wsrv "p" 1 none =
      ⟨[.getNode "p" none, .getSession, .getNode "p" (some "tok")], some "tok",
        .error (.sessionRefreshFailure "tok" "p" [("error", PyVal.str "still")])⟩ :=
  (c2_refresh_retry_once c2wsrv "p" none ⟨false, [("error", PyVal.str "auth")]⟩
    rfl rfl rfl).trans rfl

def c5xsrv : Server where
  respond := fun p _ =>
    if p = "p" then some ⟨false, [("Error", PyVal.str "auth")]⟩ else none
  sessionText := "t"

/-- **C5 counterexample.**  The claim says a failure body carrying the
error field under any casing (e.g. `"Error"`) is classified as a
refreshable authentication failure.  The Fetcher, however, reads
`response_json.get("error")` on the *raw* body (solution.py line 113 —
normalization only happens later, in `get_next_secret`), so a failure
body `[("Error", "auth")]` is classified `MalformedErrorResponse`,
with no refresh (no `getSession` request) and no retry. -/
theorem c5_error_casing_counterexample :
    request_next c5xsrv "p" 1 (some "S") =
      ⟨[.getNode "p" (some "S")], some "S",
        .error (.malformedErrorResponse "S" "p" [("Error", PyVal.str "auth")])⟩ :=
  rfl

/-- **C5** (amended).  Lookups of `secret` and `next` are
case-insensitive: the traversal normalizes the body before classifying,
so a success body carrying `"Secret"` (any casing) is a leaf and one
carrying `"Next"` (any casing, with no secret) is a branch.  The
Fetcher's failure classification, however, reads the *raw* body: the
`error` field is recognized only under the literal lower-case key, and
a failure body whose raw `error` lookup is falsy or absent triggers no
refresh regardless of how its keys are cased. -/
theorem c5_lookup_casing (srv : Server) (p : String) (fuel : Nat) :
    (∀ (sess : Option String) (r : HttpResponse) (v : PyVal),
      srv.respond p sess = some r → r.ok = true →
      dictGet (normalize_keys r.body) "secret" = some v →
      get_next_secret srv (fuel + 1) sess p =
        some ⟨[.getNode p sess], sess, .ok [v]⟩) ∧
    (∀ (sess : Option String) (r : HttpResponse) (l : List PyVal) (paths : List String),
      srv.respond p sess = some r → r.ok = true →
      dictGet (normalize_keys r.body) "secret" = none →
      dictGet (normalize_keys r.body) "next" = some (.list l) → l ≠ [] →
      asStrings l = some paths →
      get_next_secret srv (fuel + 1) sess p =
        (walkChildren (get_next_secret srv fuel) sess paths).map
          fun o => ⟨.getNode p sess :: o.events, o.session, o.result⟩) ∧
    (∀ (s : String) (r : HttpResponse),
      srv.respond p (some s) = some r → r.ok = false →
      optTruthy (dictGet r.body "error") = false →
      request_next srv p 1 (some s) =
        ⟨[.getNode p (some s)], some s,
          .error (.malformedErrorResponse s p r.body)⟩) := by
  refine ⟨?_, ?_, ?_⟩
  · intro sess r v hr hok hsec
    exact get_next_secret_leaf fuel hr hok hsec
  · intro sess r l paths hr hok hsec hnext hne hstr
    exact get_next_secret_branch fuel hr hok hsec hnext hne hstr
  · intro s r hr hok herr
    exact (request_next_malformed 0 hr hok herr).trans rfl

def c5wsrv : Server where
  respond := fun p _ =>
    if p = "leafy" then some ⟨true, [("Secret", PyVal.str "s")]⟩
    else if p = "twig" then some ⟨true, [("Next", PyVal.list [.str "leafy"])]⟩
    else if p = "bad" then some ⟨false, [("ERROR", PyVal.str "x")]⟩
    else none
  sessionText := "t"

theorem c5_lookup_casing_witness :
    get_next_secret c5wsrv 1 none "leafy" =
      some ⟨[.getNode "leafy" none], none, .ok [.str "s"]⟩ ∧
    get_next_secret c5wsrv 2 none "twig" =
      (walkChildren (get_next_secret c5wsrv 1) none ["leafy"]).map
        (fun o => ⟨.getNode "twig" none :: o.events, o.session, o.result⟩) ∧
    request_next c5wsrv "bad" 1 (some "S") =
      ⟨[.getNode "bad" (some "S")], some "S",
        .error (.malformedErrorResponse "S" "bad" [("ERROR", PyVal.str "x")])⟩ := by
  refine ⟨?_, ?_, ?_⟩
  · exact (c5_lookup_casing c5wsrv "leafy" 0).1 none
      ⟨true, [("Secret", PyVal.str "s")]⟩ (.str "s") rfl rfl rfl
  · exact (c5_lookup_casing c5wsrv "twig" 1).2.1 none
      ⟨true, [("Next", PyVal.list [.str "leafy"])]⟩ [.str "leafy"] ["leafy"]
      rfl rfl rfl rfl (by simp) rfl
  · exact (c5_lookup_casing c5wsrv "bad" 0).2.2 "S"
      ⟨false, [("ERROR", PyVal.str "x")]⟩ rfl rfl rfl

def c7xsrv : Server where
  respond := fun p _ => if p = "q" then some ⟨true, []⟩ else none
  sessionText := "t"

/-- **C7 counterexample.**  The claim says the session credential is
read only inside the Fetcher.  But `get_next_secret` — the Traversal
Engine — reads `headers.get("Session")` itself when raising
`MissingNextKey` (solution.py line 76): on a server whose responses
ignore the credential entirely (`c7xsrv.respond` discards its session
argument by definition), the traversal's own error output still
contains the credential, and differs between two credentials. -/
theorem c7_session_read_counterexample :
    get_next_secret c7xsrv 1 (some "A") "q" =
      some ⟨[.getNode "q" (some "A")], some "A",
        .error (.missingNextKey (some "A") "q" [])⟩ ∧
    get_next_secret c7xsrv 1 (some "B") "q" =
      some ⟨[.getNode "q" (some "B")], some "B",
        .error (.missingNextKey (some "B") "q" [])⟩ :=
  ⟨rfl, rfl⟩

/-- **C7** (amended).  The session credential is *written* only by the
refresh step: a traversal that issued no `getSession` request returns
the credential it started with, and every node request issued before
the first refresh carries exactly the starting credential — in
particular, starting from no credential (`headers = {}` in `run`), no
request carries a `Session` header before the first refresh.  (The
credential is, however, also *read* outside the Fetcher, by the
traversal's `MissingNextKey` diagnostic — see the counterexample.) -/
theorem c7_session_discipline (srv : Server) (fuel : Nat) (sess : Option String)
    (p : String) (o : TravOut) (h : get_next_secret srv fuel sess p = some o) :
    (Event.getSession ∉ o.events → o.session = sess) ∧
    headerOkB sess o.events = true :=
  trav_header srv fuel sess p o h

def c7wsrv : Server where
  respond := fun p s =>
    if p = "w" then
      (if s = some "tk" then some ⟨true, [("secret", PyVal.str "Z")]⟩
       else some ⟨false, [("error", PyVal.str "auth")]⟩)
    else none
  sessionText := "tk"

theorem c7_session_discipline_witness :
    headerOkB none [Event.getNode "w" none, Event.getSession,
      Event.getNode "w" (some "tk")] = true :=
  (c7_session_discipline c7wsrv 1 none "w"
    ⟨[.getNode "w" none, .getSession, .getNode "w" (some "tk")], some "tk",
      .ok [.str "Z"]⟩ rfl).2

def c8wsrv : Server where
  respond := fun p _ =>
    if p = "start" then some ⟨true, [("next", PyVal.list [.str "a", .str "b"])]⟩
    else if p = "a" then some ⟨true, [("secret", PyVal.str "X")]⟩
    else if p = "b" then some ⟨true, []⟩
    else none
  sessionText := "t"

/-- **C8.**  The output is all-or-nothing: when, under a branch node,
some child's subtree fails with a fatal error after earlier siblings
already produced secrets, the branch's whole traversal fails with that
same error — the sibling secrets are discarded, and `run` reports the
failure with no partial secret list. -/
theorem c8_all_or_nothing (srv : Server) (fuel : Nat) (sess : Option String)
    (p : String) (r : HttpResponse) (l : List PyVal) (pre : List String)
    (cp : String) (suf : List String) (ev₁ ev₂ : List Event)
    (s₁ s₂ : Option String) (secs₁ : List PyVal) (e : Err)
    (hr : srv.respond p sess = some r) (hok : r.ok = true)
    (hsec : dictGet (normalize_keys r.body) "secret" = none)
    (hnext : dictGet (normalize_keys r.body) "next" = some (.list l))
    (hstr : asStrings l = some (pre ++ cp :: suf))
    (hpre : walkChildren (get_next_secret srv fuel) sess pre = some ⟨ev₁, s₁, .ok secs₁⟩)
    (hchild : get_next_secret srv fuel s₁ cp = some ⟨ev₂, s₂, .error e⟩) :
    get_next_secret srv (fuel + 1) sess p =
      some ⟨.getNode p sess :: (ev₁ ++ ev₂), s₂, .error e⟩ ∧
    (p = "start" → sess = none → run srv (fuel + 1) = some (.failure e)) := by
  have hne : l ≠ [] := by
    rintro rfl
    rw [asStrings] at hstr
    cases pre <;> simp at hstr
  have hmain : get_next_secret srv (fuel + 1) sess p =
      some ⟨.getNode p sess :: (ev₁ ++ ev₂), s₂, .error e⟩ := by
    rw [get_next_secret_branch fuel hr hok hsec hnext hne hstr]
    rw [walkChildren_append _ sess (cp :: suf) hpre]
    have hcps : walkChildren (get_next_secret srv fuel) s₁ (cp :: suf) =
        some ⟨ev₂, s₂, .error e⟩ := by
      rw [walkChildren, List.foldl_cons, childStep_ok_eq, hchild]
      show List.foldl (childStep (get_next_secret srv fuel))
        (some (⟨[] ++ ev₂, s₂, .error e⟩ : TravOut)) suf = _
      rw [foldl_childStep_error _ rfl]
      simp
    rw [hcps]
    simp [resPrepend]
  refine ⟨hmain, ?_⟩
  rintro rfl rfl
  rw [run, hmain]

theorem c8_all_or_nothing_witness :
    get_next_secret c8wsrv 2 none "start" =
      some ⟨.getNode "start" none :: ([.getNode "a" none] ++ [.getNode "b" none]),
        none, .error (.missingNextKey none "b" [])⟩ ∧
    run c8wsrv 2 = some (.failure (.missingNextKey none "b" [])) := by
  have h := c8_all_or_nothing c8wsrv 1 none "start"
    ⟨true, [("next", PyVal.list [.str "a", .str "b"])]⟩
    [.str "a", .str "b"] ["a"] "b" []
    [.getNode "a" none] [.getNode "b" none] none none [.str "X"]
    (.missingNextKey none "b" [])
    rfl rfl rfl rfl rfl rfl rfl
  exact ⟨h.1, h.2 rfl rfl⟩
